import Mathlib

/-!
Verification of the rendering core of VideoToSRT (src/backend/engine.py):
the timestamp formatter (format_timestamp, lines 173-183), the profanity
redactor (apply_profanity_filter, lines 273-278), and the caption/transcript
renderer (generate_output, lines 280-356).

Modelling conventions: Python floats carrying second offsets are modelled as
rationals; Python ints as integers; Python strings as Lean strings (ASCII
case folding via Char.toLower and ASCII whitespace via String.trim, which
is what the transcripts produced upstream contain).  datetime.timedelta's
conversion of fractional seconds to whole microseconds (round half to even)
is modelled explicitly by rne below.
-/

namespace VideoToSRT

/-! ### Timestamp formatting: engine.py lines 173-183

```
def format_timestamp(seconds, fmt="srt"):
    td = datetime.timedelta(seconds=seconds)
    total_seconds = int(td.total_seconds())
    hours = total_seconds // 3600
    minutes = (total_seconds % 3600) // 60
    secs = total_seconds % 60
    millis = int(td.microseconds / 1000)
    if fmt == "vtt":
        return f"{hours:02}:{minutes:02}:{secs:02}.{millis:03}"
    return f"{hours:02}:{minutes:02}:{secs:02},{millis:03}"
```
-/

/-- Round a rational to the nearest integer, ties to even: the rounding
datetime.timedelta applies when converting a fractional seconds argument
to a whole number of microseconds. -/
def rne (x : ℚ) : ℤ :=
  let f := x.floor
  let r := x - (f : ℚ)
  if r < 1/2 then f
  else if (1/2 : ℚ) < r then f + 1
  else if f % 2 = 0 then f else f + 1

/-- Python int() on a real value: truncation toward zero. -/
def pyTrunc (x : ℚ) : ℤ := if 0 ≤ x then x.floor else -(-x).floor

/-- Zero-pad the decimal representation of a natural number to width w
(Python format spec such as 02 or 03 applied to a non-negative int). -/
def padNat (w : ℕ) (m : ℕ) : String :=
  String.mk (List.replicate (w - (toString m).length) '0') ++ toString m

/-- Zero-pad a possibly negative integer to width w; Python puts the sign
before the padding and the sign counts toward the width. -/
def padInt (w : ℕ) (n : ℤ) : String :=
  if n < 0 then "-" ++ padNat (w - 1) n.natAbs else padNat w n.natAbs

/-- engine.py lines 173-183, format_timestamp.  A timedelta constructed from
a (finite) seconds value stores rne (seconds * 10^6) microseconds; its
microseconds attribute is that total floor-modulo 10^6, its total_seconds()
is the total divided by 10^6, truncated toward zero by int().  Python's
`//` and `%` on ints are floor division and floor modulo, which for the
positive divisors used here agree with Lean's Int `/` and `%` (Euclidean
division). -/
def format_timestamp (seconds : ℚ) (fmt : String) : String :=
  let us : ℤ := rne (seconds * 1000000)
  let total_seconds : ℤ := pyTrunc ((us : ℚ) / 1000000)
  let hours : ℤ := total_seconds / 3600
  let minutes : ℤ := (total_seconds % 3600) / 60
  let secs : ℤ := total_seconds % 60
  let millis : ℤ := (us % 1000000) / 1000
  padInt 2 hours ++ ":" ++ padInt 2 minutes ++ ":" ++ padInt 2 secs ++
    (if fmt = "vtt" then "." else ",") ++ padInt 3 millis

/-! ### Profanity redaction: engine.py lines 273-278

```
def apply_profanity_filter(text):
    bad_words = ["fuck", "shit", "bitch", "asshole", "cunt", "dick"]
    for word in bad_words:
        pattern = re.compile(re.escape(word), re.IGNORECASE)
        text = pattern.sub("*" * len(word), text)
    return text
```

re.sub with an escaped literal pattern scans left to right, replacing each
leftmost non-overlapping case-insensitive occurrence.
-/

/-- Case-insensitive literal match of pat against a prefix of s
(re.IGNORECASE on a literal pattern compares case-folded characters). -/
def matchAt : List Char → List Char → Bool
  | [], _ => true
  | _ :: _, [] => false
  | q :: qs, c :: cs => (c.toLower == q.toLower) && matchAt qs cs

/-- Does pat occur (case-insensitively) anywhere in s? -/
def hasMatch (pat : List Char) : List Char → Bool
  | [] => matchAt pat []
  | c :: cs => matchAt pat (c :: cs) || hasMatch pat cs

/-- Left-to-right scan replacing each leftmost non-overlapping
case-insensitive occurrence of q :: qs by an equal-length run of the mask
character, exactly as re.sub does for a literal pattern. -/
def maskScan (q : Char) (qs : List Char) : List Char → List Char
  | [] => []
  | c :: cs =>
    if matchAt (q :: qs) (c :: cs) then
      List.replicate (qs.length + 1) '*' ++ maskScan q qs (cs.drop qs.length)
    else
      c :: maskScan q qs cs
termination_by s => s.length
decreasing_by
  · simp only [List.length_drop, List.length_cons]
    omega
  · simp only [List.length_cons]
    omega

/-- One pattern.sub pass for one listed word. -/
def pySub (word : String) (s : String) : String :=
  match word.data with
  | [] => s
  | q :: qs => String.mk (maskScan q qs s.data)

/-- The fixed list from engine.py line 274. -/
def bad_words : List String := ["fuck", "shit", "bitch", "asshole", "cunt", "dick"]

/-- engine.py lines 273-278, apply_profanity_filter: one substitution pass
per listed word, in list order. -/
def apply_profanity_filter (text : String) : String :=
  bad_words.foldl (fun t w => pySub w t) text

/-! ### Data model (§3 of the spec, keys used by generate_output) -/

/-- A timed word as produced by whisper's word_timestamps: keys "word",
"start", "end".  The field stop models the key "end" (a Lean keyword). -/
structure Word where
  word : String
  start : ℚ
  stop : ℚ
deriving Inhabited, DecidableEq, Repr

/-- A recognition segment: keys "text", "start", "end", and optionally
"words" (none models the key being absent). -/
structure Segment where
  text : String
  start : ℚ
  stop : ℚ
  words : Option (List Word)
deriving Inhabited, DecidableEq, Repr

/-- The transcription result: key "segments". -/
structure Transcript where
  segments : List Segment
deriving Inhabited, DecidableEq, Repr

/-- engine.py lines 281-283: all_words accumulated by extending with each
segment's "words" value when the key is present. -/
def allWords (t : Transcript) : List Word :=
  t.segments.foldl
    (fun acc s => match s.words with | some ws => acc ++ ws | none => acc) []

/-! ### Plain-text path: engine.py lines 288-306 -/

/-- One segment's contribution: segment["text"].strip(), redacted when
use_profanity is set (lines 292-293). -/
def segText (prof : Bool) (s : Segment) : String :=
  let t := s.text.trim
  if prof then apply_profanity_filter t else t

/-- Separator inserted between consecutive segments (lines 298-304):
a paragraph break when the silence gap is strictly greater than 1.0
seconds, else a single space. -/
def gapSep (a b : Segment) : String :=
  if b.start - a.stop > 1 then "\n\n" else " "

/-- The loop of lines 291-304: append each segment's processed text and,
when a next segment exists, the separator chosen from the gap to it.
The loop's running output_str accumulation is rendered as structural
recursion on the remaining segments. -/
def txtFold (prof : Bool) : List Segment → String
  | [] => ""
  | [s] => segText prof s
  | s :: t :: rest => segText prof s ++ gapSep s t ++ txtFold prof (t :: rest)

/-! ### Caption packing: engine.py lines 309-341 -/

/-- The line dict built by flush_line (line 324). -/
structure Line where
  text : String
  start : ℚ
  stop : ℚ
deriving Inhabited, DecidableEq, Repr

/-- The block dict appended to final_blocks (lines 313, 331). -/
structure Block where
  start : ℚ
  stop : ℚ
  text : String
deriving Inhabited, DecidableEq, Repr

/-- flush_line's line construction (lines 322-324): start from the first
word, end from the last word, text the concatenation of the words' raw
texts with surrounding whitespace stripped. -/
def mkLine (ws : List Word) : Line :=
  { text := (String.join (ws.map (fun w => w.word))).trim
    start := (ws.headD default).start
    stop := (ws.getLastD default).stop }

/-- flush_block's block construction (lines 328-331): start/end from the
first/last line, text the lines' texts joined by a line break. -/
def mkBlock (ls : List Line) : Block :=
  { text := String.intercalate "\n" (ls.map (fun l => l.text))
    start := (ls.headD default).start
    stop := (ls.getLastD default).stop }

/-- The closure-captured mutable accumulators of lines 315-317 as an
explicit state: final_blocks, current_block_lines, current_line_words,
current_line_len. -/
structure PackState where
  blocks : List Block
  blockLines : List Line
  lineWords : List Word
  lineLen : ℕ
deriving Inhabited, DecidableEq, Repr

/-- flush_line (lines 319-325): a no-op on an empty current line. -/
def flushLine (st : PackState) : PackState :=
  if st.lineWords = [] then st
  else
    { blocks := st.blocks
      blockLines := st.blockLines ++ [mkLine st.lineWords]
      lineWords := []
      lineLen := 0 }

/-- flush_block (lines 327-332): a no-op on an empty current block. -/
def flushBlock (st : PackState) : PackState :=
  if st.blockLines = [] then st
  else
    { blocks := st.blocks ++ [mkBlock st.blockLines]
      blockLines := []
      lineWords := st.lineWords
      lineLen := st.lineLen }

/-- The flush phase of the loop body (lines 336-338): when the word no
longer fits and the current line is non-empty, flush the line, then flush
the block if it has reached max_lines lines. -/
def packFlush (mc ml : ℤ) (st : PackState) (w : Word) : PackState :=
  if (st.lineLen : ℤ) + w.word.length > mc ∧ 0 < st.lineLen then
    let st2 := flushLine st
    if (ml : ℤ) ≤ (st2.blockLines.length : ℤ) then flushBlock st2 else st2
  else st

/-- One iteration of the loop over all_words (lines 334-339): the flush
phase, then the word is appended and its length added. -/
def packStep (mc ml : ℤ) (st : PackState) (w : Word) : PackState :=
  let st1 := packFlush mc ml st w
  { st1 with
      lineWords := st1.lineWords ++ [w]
      lineLen := st1.lineLen + w.word.length }

/-- Lines 334-341: run the loop from empty accumulators, then the final
flush_line(); flush_block(). -/
def packedBlocks (mc ml : ℤ) (ws : List Word) : List Block :=
  (flushBlock (flushLine (ws.foldl (packStep mc ml) default))).blocks

/-- Lines 311-313, the "tiktok" preset: one block per word, the word's
text stripped. -/
def tiktokBlocks (ws : List Word) : List Block :=
  ws.map fun w => { start := w.start, stop := w.stop, text := w.word.trim }

/-! ### Caption serialization: engine.py lines 343-356 -/

/-- One block's serialized entry (line 354): counter, newline, start
timestamp, the arrow separator (line 353 picks " --> " for both dialects),
end timestamp, newline, the (optionally redacted) text, blank line. -/
def entry (fmt : String) (prof : Bool) (c : ℕ) (b : Block) : String :=
  toString c ++ "\n" ++ format_timestamp b.start fmt ++ " --> " ++
    format_timestamp b.stop fmt ++ "\n" ++
    (if prof then apply_profanity_filter b.text else b.text) ++ "\n\n"

/-- engine.py lines 280-356, generate_output. -/
def generate_output (result : Transcript) (format_type preset_mode : String)
    (max_chars max_lines : ℤ) (use_profanity : Bool) : String × ℕ :=
  let all_words := allWords result
  if all_words = [] then ("", 0)
  else if format_type = "txt" then
    (txtFold use_profanity result.segments, all_words.length)
  else
    let final_blocks :=
      if preset_mode = "tiktok" then tiktokBlocks all_words
      else packedBlocks max_chars max_lines all_words
    let header := if format_type = "vtt" then "WEBVTT\n\n" else ""
    ((final_blocks.foldl
        (fun p b => (p.1 ++ entry format_type use_profanity p.2 b, p.2 + 1))
        ((header, 1) : String × ℕ)).1,
      all_words.length)

/-! ### Verification instruments

The definitions below do not model new source code; they restate parts of
the computation in forms suitable for stating the specified properties
(word-level packing structure, indexed serialization, pairwise paragraph
joining), and are related to the source-level definitions above by proved
lemmas.
-/

/-- The packing loop once more, but recording each line as its list of
words and each block as its list of word-level lines, so that structural
facts (which words share a line, how many lines a block holds) can be
stated.  projState below maps this state onto the source-level PackState. -/
structure GState where
  blocks : List (List (List Word))
  blockLines : List (List Word)
  lineWords : List Word
  lineLen : ℕ
deriving Inhabited, DecidableEq, Repr

/-- Word-level flush_line. -/
def gFlushLine (st : GState) : GState :=
  if st.lineWords = [] then st
  else
    { blocks := st.blocks
      blockLines := st.blockLines ++ [st.lineWords]
      lineWords := []
      lineLen := 0 }

/-- Word-level flush_block. -/
def gFlushBlock (st : GState) : GState :=
  if st.blockLines = [] then st
  else
    { blocks := st.blocks ++ [st.blockLines]
      blockLines := []
      lineWords := st.lineWords
      lineLen := st.lineLen }

/-- Word-level flush phase of the loop body. -/
def gFlush (mc ml : ℤ) (st : GState) (w : Word) : GState :=
  if (st.lineLen : ℤ) + w.word.length > mc ∧ 0 < st.lineLen then
    let st2 := gFlushLine st
    if (ml : ℤ) ≤ (st2.blockLines.length : ℤ) then gFlushBlock st2 else st2
  else st

/-- Word-level loop iteration. -/
def gStep (mc ml : ℤ) (st : GState) (w : Word) : GState :=
  let st1 := gFlush mc ml st w
  { st1 with
      lineWords := st1.lineWords ++ [w]
      lineLen := st1.lineLen + w.word.length }

/-- Word-level result of the packing loop plus the final flushes. -/
def gBlocks (mc ml : ℤ) (ws : List Word) : List (List (List Word)) :=
  (gFlushBlock (gFlushLine (ws.foldl (gStep mc ml) default))).blocks

/-- Interpretation of a word-level state as the source-level PackState. -/
def projState (g : GState) : PackState :=
  { blocks := g.blocks.map (fun b => mkBlock (b.map mkLine))
    blockLines := g.blockLines.map mkLine
    lineWords := g.lineWords
    lineLen := g.lineLen }

/-- Total character length of a list of words. -/
def sumLen (ws : List Word) : ℕ := (ws.map (fun w => w.word.length)).sum

/-- Indexed form of the serialization loop of lines 346-354: the entry for
counter c, then the rest with counter c + 1. -/
def renderList (fmt : String) (prof : Bool) : ℕ → List Block → String
  | _, [] => ""
  | c, b :: bs => entry fmt prof c b ++ renderList fmt prof (c + 1) bs

/-- The plain-text output as the spec words it (§4.3): each consecutive
pair of segments contributes the first segment's processed text followed
by the gap-determined separator, and the last segment contributes its
processed text with nothing after it. -/
def specTxt (prof : Bool) (segs : List Segment) : String :=
  match segs with
  | [] => ""
  | _ :: _ =>
    String.join ((segs.zip segs.tail).map fun p => segText prof p.1 ++ gapSep p.1 p.2) ++
      segText prof (segs.getLastD default)

/-- One output character is either the input character at that position or
the mask character (redaction changes nothing except masked positions). -/
def relStar (a b : Char) : Prop := b = a ∨ b = '*'

/-- A usable redaction pattern: non-empty, and no character of it can be
matched by the mask character (true of every listed bad word, whose
characters are lowercase letters). -/
def goodPat (l : List Char) : Prop := l ≠ [] ∧ ∀ q ∈ l, '*' ≠ q.toLower

/-- Property: a line that contains an overlong word consists, character-
wise, of exactly that word: concatenating the line's word texts gives the
word's own text (every other member contributes no characters). -/
def lineAlone (mc : ℤ) (l : List Word) : Prop :=
  ∀ w ∈ l, mc < (w.word.length : ℤ) → String.join (l.map (fun v => v.word)) = w.word

/-- Invariant of the packing loop at the word level: the consumed words
are exactly the words stored in the state, in order; the running line
length is the character count of the current line; and every tracked line
(inside a finished block, finished, or current) satisfies lineAlone. -/
structure LineInv (mc : ℤ) (consumed : List Word) (g : GState) : Prop where
  concat : g.blocks.flatten.flatten ++ g.blockLines.flatten ++ g.lineWords = consumed
  sync : g.lineLen = sumLen g.lineWords
  aloneB : ∀ l ∈ g.blocks.flatten, lineAlone mc l
  aloneL : ∀ l ∈ g.blockLines, lineAlone mc l
  aloneC : lineAlone mc g.lineWords

/-- Invariant of the packing loop for the block-size bound: the current
block always has strictly fewer than max_lines lines, and every finished
block has at most max_lines lines. -/
structure BlockInv (ml : ℤ) (g : GState) : Prop where
  current : (g.blockLines.length : ℤ) < ml
  done : ∀ b ∈ g.blocks, (b.length : ℤ) ≤ ml

/-! ### Helper lemmas -/

theorem ratFloor_eq_floor (x : ℚ) : x.floor = ⌊x⌋ := by
  rw [Rat.floor_def', Rat.floor_def]

theorem rne_intCast (z : ℤ) : rne ((z : ℚ)) = z := by
  unfold rne
  simp [ratFloor_eq_floor]

/-! ### Claim C5 -/

/-- Claim C5: a transcript with zero timed words renders as ("", 0) for
every format, layout and option combination, regardless of segment text. -/
theorem c5_empty_input (result : Transcript) (format_type preset_mode : String)
    (max_chars max_lines : ℤ) (use_profanity : Bool)
    (h : allWords result = []) :
    generate_output result format_type preset_mode max_chars max_lines use_profanity
      = ("", 0) := by
  simp [generate_output, h]

/-- Witness for C5: segments full of text, one without a words key and one
with an empty word list, still render as ("", 0). -/
theorem c5_empty_input_witness :
    allWords (Transcript.mk [Segment.mk "lots of text" 0 1 none,
        Segment.mk "more text" 1 2 (some [])]) = [] ∧
    generate_output (Transcript.mk [Segment.mk "lots of text" 0 1 none,
        Segment.mk "more text" 1 2 (some [])]) "srt" "standard" 42 2 false = ("", 0) :=
  ⟨by with_unfolding_all decide,
   c5_empty_input (Transcript.mk [Segment.mk "lots of text" 0 1 none,
      Segment.mk "more text" 1 2 (some [])]) "srt" "standard" 42 2 false
     (by with_unfolding_all decide)⟩

/-! ### Claim C8 -/

/-- Counterexample to C8: a negative seconds value is not rejected;
format_timestamp silently renders -0.5 s as a well-formed timestamp string
(datetime.timedelta normalizes the negative value instead of raising). -/
theorem c8_counterexample :
    format_timestamp (-1/2) "srt" = "00:00:00,500" := by
  with_unfolding_all decide

/-- Claim C8 (amended): format_timestamp performs no input validation; a
negative finite input in (-1, 0) is silently rendered through timedelta's
day-borrowing normalization as 00:00:00 with the complementary millisecond
remainder, rather than failing. -/
theorem c8_amended_negative_rendered (n : ℕ) (h1 : 0 < n) (h2 : n < 1000) :
    format_timestamp (-(n : ℚ) / 1000) "srt" = "00:00:00," ++ padNat 3 (1000 - n) := by
  have hmul : (-(n : ℚ) / 1000) * 1000000 = ((-1000 * (n : ℤ) : ℤ) : ℚ) := by
    push_cast
    ring
  unfold format_timestamp
  rw [hmul, rne_intCast]
  have hneg : ((-1000 * (n : ℤ) : ℤ) : ℚ) / 1000000 < 0 := by
    apply div_neg_of_neg_of_pos
    · have : (0 : ℤ) < 1000 * (n : ℤ) := by omega
      have : ((-1000 * (n : ℤ) : ℤ) : ℚ) = -((1000 * (n : ℤ) : ℤ) : ℚ) := by
        push_cast
        ring
      rw [this]
      simp only [neg_neg, Left.neg_neg_iff]
      exact_mod_cast by omega
    · norm_num
  have hts : pyTrunc (((-1000 * (n : ℤ) : ℤ) : ℚ) / 1000000) = 0 := by
    unfold pyTrunc
    rw [if_neg (not_le.mpr hneg), ratFloor_eq_floor]
    have hrw : -(((-1000 * (n : ℤ) : ℤ) : ℚ) / 1000000) = (n : ℚ) / 1000 := by
      push_cast
      ring
    rw [hrw]
    have hfl : ⌊(n : ℚ) / 1000⌋ = 0 := by
      rw [Int.floor_eq_zero_iff]
      constructor
      · positivity
      · rw [div_lt_one (by norm_num)]
        exact_mod_cast h2
    rw [hfl]
    rfl
  have hm : ((-1000 * (n : ℤ)) % 1000000) / 1000 = 1000 - (n : ℤ) := by
    have e : (-1000 * (n : ℤ)) = -(1000 * (n : ℤ)) := by ring
    rw [e]
    omega
  have hp : padInt 3 (1000 - (n : ℤ)) = padNat 3 (1000 - n) := by
    rw [padInt, if_neg (by omega)]
    congr 1
    omega
  have h0 : padInt 2 ((0 : ℤ) / 3600) = "00" := by decide
  have h1' : padInt 2 (((0 : ℤ) % 3600) / 60) = "00" := by decide
  have h2' : padInt 2 ((0 : ℤ) % 60) = "00" := by decide
  simp only [hts, hm, hp, h0, h1', h2']
  rw [if_neg (by decide : ¬("srt" = "vtt"))]
  congr 1

/-- Witness for C8's amended claim at n = 250: -0.25 s renders as
00:00:00,750. -/
theorem c8_amended_negative_rendered_witness :
    0 < 250 ∧ 250 < 1000 ∧
      format_timestamp (-(250 : ℚ) / 1000) "srt" = "00:00:00," ++ padNat 3 (1000 - 250) :=
  ⟨by decide, by decide, c8_amended_negative_rendered 250 (by decide) (by decide)⟩

/-! ### Claim C6 -/

/-- Counterexample to C6: the millisecond component is not always the
truncated millisecond remainder of the input.  timedelta first rounds the
input to whole microseconds (half to even), so 0.0009996 s (999.6 us)
becomes 1000 us and renders as ...,001, although the truncated millisecond
remainder of the input is 0. -/
theorem c6_counterexample :
    format_timestamp (9996/10000000) "srt" = "00:00:00,001" ∧
    ((9996 : ℚ)/10000000 * 1000).floor = 0 := by
  with_unfolding_all decide

/-- Claim C6 (amended): for every non-negative seconds value that is a
whole number of microseconds (so that timedelta's microsecond rounding is
exact), format_timestamp renders HH:MM:SS<sep>mmm with HH, MM, SS
zero-padded to 2 digits (HH unbounded), mmm zero-padded to 3 digits equal
to the truncated (never rounded) millisecond remainder, and the separator
chosen by dialect: '.' for vtt, ',' otherwise. -/
theorem c6_timestamp_format (q : ℚ) (fmt : String) (h0 : 0 ≤ q)
    (hus : (q * 1000000).den = 1) :
    format_timestamp q fmt =
      padNat 2 (⌊q⌋.toNat / 3600) ++ ":" ++ padNat 2 (⌊q⌋.toNat % 3600 / 60) ++ ":" ++
        padNat 2 (⌊q⌋.toNat % 60) ++ (if fmt = "vtt" then "." else ",") ++
        padNat 3 (⌊q * 1000⌋.toNat % 1000) := by
  have hqn : ((q * 1000000).num : ℚ) = q * 1000000 :=
    Rat.coe_int_num_of_den_eq_one hus
  set n := (q * 1000000).num with hn
  have hn0 : 0 ≤ n := Rat.num_nonneg.mpr (mul_nonneg h0 (by norm_num))
  have hq : q = (n : ℚ) / 1000000 := by
    rw [eq_div_iff (by norm_num : (1000000 : ℚ) ≠ 0), hqn]
  have hus' : rne (q * 1000000) = n := by
    rw [← hqn, rne_intCast]
  have hfl6 : ⌊(n : ℚ) / 1000000⌋ = n / 1000000 := by
    have h := Rat.floor_intCast_div_natCast n 1000000
    exact_mod_cast h
  have hfl3 : ⌊q * 1000⌋ = n / 1000 := by
    have hqq : q * 1000 = (n : ℚ) / 1000 := by
      rw [hq]
      ring
    have h := Rat.floor_intCast_div_natCast n 1000
    rw [hqq]
    exact_mod_cast h
  have hts : pyTrunc ((n : ℚ) / 1000000) = n / 1000000 := by
    unfold pyTrunc
    rw [if_pos (div_nonneg (by exact_mod_cast hn0) (by norm_num)),
      ratFloor_eq_floor, hfl6]
  have hfq : ⌊q⌋ = n / 1000000 := by
    rw [hq, hfl6]
  unfold format_timestamp
  simp only [hus', hts]
  rw [hfq, hfl3]
  have e1 : padInt 2 (n / 1000000 / 3600) = padNat 2 ((n / 1000000).toNat / 3600) := by
    rw [padInt, if_neg (by omega)]
    congr 1
    omega
  have e2 : padInt 2 ((n / 1000000 % 3600) / 60) =
      padNat 2 ((n / 1000000).toNat % 3600 / 60) := by
    rw [padInt, if_neg (by omega)]
    congr 1
    omega
  have e3 : padInt 2 (n / 1000000 % 60) = padNat 2 ((n / 1000000).toNat % 60) := by
    rw [padInt, if_neg (by omega)]
    congr 1
    omega
  have e4 : padInt 3 ((n % 1000000) / 1000) = padNat 3 ((n / 1000).toNat % 1000) := by
    rw [padInt, if_neg (by omega)]
    congr 1
    omega
  rw [e1, e2, e3, e4]

/-- Witness for C6's amended claim at the spec's example 1.4567 s: the
hypotheses hold, the theorem applies, and the rendered string is
00:00:01,456 (millis truncated to 456, not rounded to 457). -/
theorem c6_timestamp_format_witness :
    (0 : ℚ) ≤ 14567/10000 ∧ ((14567/10000 : ℚ) * 1000000).den = 1 ∧
    format_timestamp (14567/10000) "srt" =
      padNat 2 (⌊(14567/10000 : ℚ)⌋.toNat / 3600) ++ ":" ++
        padNat 2 (⌊(14567/10000 : ℚ)⌋.toNat % 3600 / 60) ++ ":" ++
        padNat 2 (⌊(14567/10000 : ℚ)⌋.toNat % 60) ++
        (if "srt" = "vtt" then "." else ",") ++
        padNat 3 (⌊(14567/10000 : ℚ) * 1000⌋.toNat % 1000) ∧
    format_timestamp (14567/10000) "srt" = "00:00:01,456" :=
  ⟨by with_unfolding_all decide, by with_unfolding_all decide,
   c6_timestamp_format (14567/10000) "srt" (by with_unfolding_all decide)
     (by with_unfolding_all decide),
   by with_unfolding_all decide⟩

/-! ### Claim C3 -/

theorem stringJoin_cons (a : String) (l : List String) :
    String.join (a :: l) = a ++ String.join l := by
  simp [String.join_eq]
  rfl

/-- The serialization loop's counter fold equals the indexed rendering. -/
theorem foldl_entry (fmt : String) (prof : Bool) (bs : List Block) (acc : String) (c : ℕ) :
    bs.foldl (fun p b => (p.1 ++ entry fmt prof p.2 b, p.2 + 1)) ((acc, c) : String × ℕ) =
      (acc ++ renderList fmt prof c bs, c + bs.length) := by
  induction bs generalizing acc c with
  | nil => simp [renderList]
  | cons b bs ih =>
    simp only [List.foldl_cons, renderList, List.length_cons, ih]
    congr 1
    · rw [String.append_assoc]
    · omega

/-- Claim C3: for either caption dialect the output is the vtt-only WEBVTT
header followed by, for each block in order, a 1-based counter that
increments by exactly 1, the two timestamps joined by " --> ", the
(optionally redacted) block text, and a blank line. -/
theorem c3_caption_serialization (result : Transcript) (format_type preset_mode : String)
    (max_chars max_lines : ℤ) (use_profanity : Bool)
    (hfmt : format_type = "srt" ∨ format_type = "vtt")
    (hw : allWords result ≠ []) :
    generate_output result format_type preset_mode max_chars max_lines use_profanity =
      ((if format_type = "vtt" then "WEBVTT\n\n" else "") ++
        renderList format_type use_profanity 1
          (if preset_mode = "tiktok" then tiktokBlocks (allWords result)
            else packedBlocks max_chars max_lines (allWords result)),
        (allWords result).length) := by
  have htxt : format_type ≠ "txt" := by
    rcases hfmt with h | h <;> simp [h]
  simp [generate_output, hw, htxt, foldl_entry]

/-- Witness for C3 at the spec's concrete scenario (the second word carries
its upstream-tokenized leading space): the output is exactly
"1\n00:00:00,000 --> 00:00:01,000\nHi there\n\n" with word count 2. -/
theorem c3_caption_serialization_witness :
    generate_output
        (Transcript.mk [Segment.mk "Hi there" 0 1
          (some [Word.mk "Hi" 0 (1/2), Word.mk " there" (1/2) 1])])
        "srt" "standard" 10 2 false =
      ("1\n00:00:00,000 --> 00:00:01,000\nHi there\n\n", 2) := by
  rw [c3_caption_serialization
    (Transcript.mk [Segment.mk "Hi there" 0 1
      (some [Word.mk "Hi" 0 (1/2), Word.mk " there" (1/2) 1])])
    "srt" "standard" 10 2 false (Or.inl rfl) (by with_unfolding_all decide)]
  with_unfolding_all decide

/-! ### Claim C4 -/

/-- The plain-text loop agrees with the pairwise joining the spec words. -/
theorem txtFold_eq_specTxt (prof : Bool) (segs : List Segment) :
    txtFold prof segs = specTxt prof segs := by
  induction segs with
  | nil => rfl
  | cons s rest ih =>
    cases rest with
    | nil =>
      rfl
    | cons t rest2 =>
      rw [txtFold, ih, specTxt, specTxt]
      simp only [List.tail_cons, List.zip_cons_cons, List.map_cons, List.getLastD_cons,
        stringJoin_cons]
      simp [String.append_assoc]

/-- Claim C4: in plain-text format, consecutive segments' trimmed texts
are joined by a paragraph break exactly when the silence gap is strictly
greater than 1.0 s and by a single space otherwise (a gap of exactly 1.0
yields a space), with nothing after the last segment. -/
theorem c4_paragraph_breaks (result : Transcript) (preset_mode : String)
    (max_chars max_lines : ℤ) (use_profanity : Bool)
    (h : allWords result ≠ []) :
    generate_output result "txt" preset_mode max_chars max_lines use_profanity =
      (specTxt use_profanity result.segments, (allWords result).length) ∧
    (∀ a b : Segment, b.start - a.stop > 1 → gapSep a b = "\n\n") ∧
    (∀ a b : Segment, b.start - a.stop ≤ 1 → gapSep a b = " ") := by
  refine ⟨?_, ?_, ?_⟩
  · simp [generate_output, h, txtFold_eq_specTxt]
  · intro a b hab
    simp [gapSep, hab]
  · intro a b hab
    simp [gapSep, not_lt.mpr hab]

/-- Witness for C4: two segments with gap 1.5 s get a paragraph break; a
gap of exactly 1.0 s yields a single space. -/
theorem c4_paragraph_breaks_witness :
    allWords (Transcript.mk [Segment.mk " Hello there." 0 2 (some [Word.mk "Hello" 0 2]),
        Segment.mk " Bye." (7/2) 4 (some [Word.mk "Bye" (7/2) 4])]) ≠ [] ∧
    generate_output
        (Transcript.mk [Segment.mk " Hello there." 0 2 (some [Word.mk "Hello" 0 2]),
          Segment.mk " Bye." (7/2) 4 (some [Word.mk "Bye" (7/2) 4])])
        "txt" "standard" 42 2 false =
      ("Hello there.\n\nBye.", 2) ∧
    gapSep (Segment.mk "a" 0 1 none) (Segment.mk "b" 3 4 none) = "\n\n" ∧
    gapSep (Segment.mk "a" 0 1 none) (Segment.mk "b" 2 3 none) = " " := by
  have h := c4_paragraph_breaks
    (Transcript.mk [Segment.mk " Hello there." 0 2 (some [Word.mk "Hello" 0 2]),
      Segment.mk " Bye." (7/2) 4 (some [Word.mk "Bye" (7/2) 4])])
    "standard" 42 2 false (by with_unfolding_all decide)
  refine ⟨by with_unfolding_all decide, ?_, ?_, ?_⟩
  · rw [h.1]
    with_unfolding_all decide
  · exact h.2.1 (Segment.mk "a" 0 1 none) (Segment.mk "b" 3 4 none)
      (by with_unfolding_all decide)
  · exact h.2.2 (Segment.mk "a" 0 1 none) (Segment.mk "b" 2 3 none)
      (by with_unfolding_all decide)

/-! ### Claim C9 -/

theorem format_timestamp_fmt (q : ℚ) (fmt : String) (h : fmt ≠ "vtt") :
    format_timestamp q fmt = format_timestamp q "srt" := by
  simp [format_timestamp, h]

theorem entry_fmt (fmt : String) (prof : Bool) (h : fmt ≠ "vtt") (c : ℕ) (b : Block) :
    entry fmt prof c b = entry "srt" prof c b := by
  simp [entry, format_timestamp_fmt _ _ h]

/-- Counterexample to C9: the options are never validated.  With
max_chars = 0 and max_lines = 0 — both non-positive — generate_output
still produces complete caption output (one word per block) instead of
rejecting the options before rendering. -/
theorem c9_counterexample :
    generate_output
        (Transcript.mk [Segment.mk "Hi there" 0 1
          (some [Word.mk "Hi" 0 (1/2), Word.mk " there" (1/2) 1])])
        "srt" "standard" 0 0 false =
      ("1\n00:00:00,000 --> 00:00:00,500\nHi\n\n2\n00:00:00,500 --> 00:00:01,000\nthere\n\n", 2) := by
  with_unfolding_all decide

/-- Claim C9 (amended): no option validation exists; rendering always
proceeds.  Any format tag other than "txt" and "vtt" renders exactly as
the srt dialect, unknown layout tags render as the packed layout, and
non-positive maxChars/maxLines still produce complete output (see the
counterexample). -/
theorem c9_amended_no_validation (result : Transcript) (preset_mode : String)
    (max_chars max_lines : ℤ) (use_profanity : Bool) (fmt : String)
    (h1 : fmt ≠ "txt") (h2 : fmt ≠ "vtt") :
    generate_output result fmt preset_mode max_chars max_lines use_profanity =
      generate_output result "srt" preset_mode max_chars max_lines use_profanity := by
  have hf : (fun (p : String × ℕ) b => (p.1 ++ entry fmt use_profanity p.2 b, p.2 + 1)) =
      (fun (p : String × ℕ) b => (p.1 ++ entry "srt" use_profanity p.2 b, p.2 + 1)) := by
    funext p b
    rw [entry_fmt fmt use_profanity h2]
  simp [generate_output, h1, h2, hf]

/-- Witness for C9's amended claim: the unknown format tag "bogus" renders
exactly as srt. -/
theorem c9_amended_no_validation_witness :
    ("bogus" : String) ≠ "txt" ∧ ("bogus" : String) ≠ "vtt" ∧
    generate_output
        (Transcript.mk [Segment.mk "Hi there" 0 1
          (some [Word.mk "Hi" 0 (1/2), Word.mk " there" (1/2) 1])])
        "bogus" "standard" 42 2 false =
      generate_output
        (Transcript.mk [Segment.mk "Hi there" 0 1
          (some [Word.mk "Hi" 0 (1/2), Word.mk " there" (1/2) 1])])
        "srt" "standard" 42 2 false :=
  ⟨by decide, by decide,
   c9_amended_no_validation
     (Transcript.mk [Segment.mk "Hi there" 0 1
       (some [Word.mk "Hi" 0 (1/2), Word.mk " there" (1/2) 1])])
     "standard" 42 2 false "bogus" (by decide) (by decide)⟩

/-! ### Claims C7 and C10 -/

theorem matchAt_le {pat s : List Char} (h : matchAt pat s = true) :
    pat.length ≤ s.length := by
  induction pat generalizing s with
  | nil => simp
  | cons q qs ih =>
    cases s with
    | nil => simp [matchAt] at h
    | cons c cs =>
      simp only [matchAt, Bool.and_eq_true] at h
      simpa using ih h.2

theorem forall2_star_refl (s : List Char) : List.Forall₂ relStar s s := by
  induction s with
  | nil => exact List.Forall₂.nil
  | cons c cs ih => exact List.Forall₂.cons (Or.inl rfl) ih

theorem forall2_append {r : Char → Char → Prop} :
    ∀ {a b c d : List Char}, List.Forall₂ r a b → List.Forall₂ r c d →
      List.Forall₂ r (a ++ c) (b ++ d) := by
  intro a b c d hab hcd
  induction hab with
  | nil => exact hcd
  | cons h _ ih => exact List.Forall₂.cons h ih

theorem forall2_star_replicate : ∀ (xs : List Char) (n : ℕ), xs.length = n →
    List.Forall₂ relStar xs (List.replicate n '*') := by
  intro xs
  induction xs with
  | nil =>
    intro n h
    simp [← h, List.Forall₂.nil]
  | cons c cs ih =>
    intro n h
    cases n with
    | zero => simp at h
    | succ m =>
      rw [List.replicate_succ]
      exact List.Forall₂.cons (Or.inr rfl) (ih m (by simpa using h))

theorem maskScan_stars (q : Char) (qs : List Char) (s : List Char) :
    List.Forall₂ relStar s (maskScan q qs s) := by
  induction s using maskScan.induct q qs with
  | case1 =>
    rw [maskScan]
    exact List.Forall₂.nil
  | case2 c cs h ih =>
    rw [maskScan, if_pos h]
    have hk : qs.length ≤ cs.length := by
      have := matchAt_le h
      simpa using this
    have hsplit : c :: cs = (c :: cs.take qs.length) ++ cs.drop qs.length := by
      simp [List.take_append_drop]
    rw [hsplit]
    refine forall2_append ?_ ih
    exact forall2_star_replicate (c :: cs.take qs.length) (qs.length + 1)
      (by simp [List.length_take, Nat.min_eq_left hk])
  | case3 c cs h ih =>
    rw [maskScan, if_neg h]
    exact List.Forall₂.cons (Or.inl rfl) ih

theorem forall2_star_trans {a b c : List Char} (hab : List.Forall₂ relStar a b)
    (hbc : List.Forall₂ relStar b c) : List.Forall₂ relStar a c := by
  induction hab generalizing c with
  | nil =>
    cases hbc
    exact List.Forall₂.nil
  | cons h _ ih =>
    cases hbc with
    | cons h2 t2 =>
      refine List.Forall₂.cons ?_ (ih t2)
      rcases h with h | h <;> rcases h2 with h2 | h2 <;> subst h2 <;> simp_all [relStar]

theorem matchAt_of_stars {pat : List Char} (hpat : ∀ x ∈ pat, '*' ≠ x.toLower) :
    ∀ {s t : List Char}, List.Forall₂ relStar s t → matchAt pat t = true →
      matchAt pat s = true := by
  induction pat with
  | nil =>
    intro s t _ _
    simp [matchAt]
  | cons p ps ih =>
    intro s t hst hm
    cases hst with
    | nil => simp [matchAt] at hm
    | cons hr ht =>
      simp only [matchAt, Bool.and_eq_true, beq_iff_eq] at hm ⊢
      refine ⟨?_, ih (fun x hx => hpat x (List.mem_cons_of_mem p hx)) ht hm.2⟩
      rcases hr with hr | hr
      · rw [← hr]
        exact hm.1
      · exfalso
        rw [hr] at hm
        exact hpat p (List.mem_cons_self p ps) hm.1

theorem hasMatch_of_stars {pat : List Char} (hpat : ∀ x ∈ pat, '*' ≠ x.toLower)
    {s t : List Char} (hst : List.Forall₂ relStar s t) :
    hasMatch pat t = true → hasMatch pat s = true := by
  induction hst with
  | nil =>
    intro h
    exact h
  | cons hr ht ih =>
    intro h
    simp only [hasMatch, Bool.or_eq_true] at h ⊢
    rcases h with h | h
    · exact Or.inl (matchAt_of_stars hpat (List.Forall₂.cons hr (by assumption)) h)
    · exact Or.inr (ih h)

theorem star_no_matchAt {q : Char} (qs : List Char) (hq : '*' ≠ q.toLower)
    (t : List Char) : matchAt (q :: qs) ('*' :: t) = false := by
  simp only [matchAt, Bool.and_eq_false_iff]
  left
  simp only [beq_eq_false_iff_ne, ne_eq]
  intro h
  exact hq (by simpa using h)

theorem hasMatch_replicate_append {q : Char} (qs : List Char) (hq : '*' ≠ q.toLower)
    (n : ℕ) (t : List Char) :
    hasMatch (q :: qs) (List.replicate n '*' ++ t) = hasMatch (q :: qs) t := by
  induction n with
  | zero => simp
  | succ m ih =>
    rw [List.replicate_succ, List.cons_append, hasMatch, star_no_matchAt qs hq, ih]
    simp

theorem maskScan_no_match (q : Char) (qs : List Char)
    (hpat : ∀ x ∈ q :: qs, '*' ≠ x.toLower) (s : List Char) :
    hasMatch (q :: qs) (maskScan q qs s) = false := by
  have hq : '*' ≠ q.toLower := hpat q (List.mem_cons_self q qs)
  induction s using maskScan.induct q qs with
  | case1 =>
    rw [maskScan]
    simp [hasMatch, matchAt]
  | case2 c cs h ih =>
    rw [maskScan, if_pos h, hasMatch_replicate_append qs hq]
    exact ih
  | case3 c cs h ih =>
    rw [maskScan, if_neg h, hasMatch]
    simp only [Bool.or_eq_false_iff]
    refine ⟨?_, ih⟩
    by_contra hcon
    simp only [Bool.not_eq_false] at hcon
    have := matchAt_of_stars hpat
      (List.Forall₂.cons (Or.inl rfl) (maskScan_stars q qs cs)) hcon
    rw [this] at h
    exact h rfl

theorem maskScan_id (q : Char) (qs : List Char) : ∀ (s : List Char),
    hasMatch (q :: qs) s = false → maskScan q qs s = s := by
  intro s
  induction s using maskScan.induct q qs with
  | case1 =>
    intro _
    rw [maskScan]
  | case2 c cs h ih =>
    intro hno
    rw [hasMatch, h] at hno
    simp at hno
  | case3 c cs h ih =>
    intro hno
    rw [hasMatch, Bool.or_eq_false_iff] at hno
    rw [maskScan, if_neg h, ih hno.2]

theorem pySub_stars (w : String) (s : String) :
    List.Forall₂ relStar s.data (pySub w s).data := by
  rcases hw : w.data with _ | ⟨q, qs⟩
  · simp only [pySub, hw]
    exact forall2_star_refl s.data
  · simp only [pySub, hw]
    exact maskScan_stars q qs s.data

theorem pySub_no_match (w : String) (hpat : goodPat w.data) (s : String) :
    hasMatch w.data (pySub w s).data = false := by
  rcases hw : w.data with _ | ⟨q, qs⟩
  · exact absurd hw hpat.1
  · simp only [pySub, hw]
    exact maskScan_no_match q qs (hw ▸ hpat.2) s.data

theorem pySub_id (w : String) (s : String) (h : hasMatch w.data s.data = false) :
    pySub w s = s := by
  rcases hw : w.data with _ | ⟨q, qs⟩
  · simp only [pySub, hw]
  · simp only [pySub, hw]
    rw [maskScan_id q qs s.data (hw ▸ h)]

theorem foldSub_stars (ws : List String) (s : String) :
    List.Forall₂ relStar s.data ((ws.foldl (fun t w => pySub w t) s).data) := by
  induction ws generalizing s with
  | nil => exact forall2_star_refl s.data
  | cons v vs ih =>
    exact forall2_star_trans (pySub_stars v s) (ih (pySub v s))

theorem foldSub_no_match (ws : List String) (w : String) (hw : w ∈ ws)
    (hpat : goodPat w.data) (s : String) :
    hasMatch w.data ((ws.foldl (fun t w => pySub w t) s).data) = false := by
  induction ws generalizing s with
  | nil => cases hw
  | cons v vs ih =>
    rcases List.mem_cons.mp hw with rfl | hmem
    · by_cases hvs : hasMatch w.data ((vs.foldl (fun t w => pySub w t) (pySub w s)).data) = true
      · exfalso
        have hstars := foldSub_stars vs (pySub w s)
        have := hasMatch_of_stars (fun x hx => hpat.2 x hx) hstars hvs
        rw [pySub_no_match w hpat s] at this
        exact Bool.false_ne_true this
      · simpa using hvs
    · exact ih hmem (pySub v s)

theorem foldSub_id (ws : List String) (t : String)
    (h : ∀ w ∈ ws, pySub w t = t) :
    ws.foldl (fun t w => pySub w t) t = t := by
  induction ws with
  | nil => rfl
  | cons v vs ih =>
    rw [List.foldl_cons, h v (List.mem_cons_self v vs)]
    exact ih (fun w hw => h w (List.mem_cons_of_mem v hw))

theorem bad_words_good : ∀ w ∈ bad_words, goodPat w.data := by
  simp only [goodPat]
  decide

/-- Claim C7: redaction is length-preserving and touches nothing outside
matched occurrences: every output character is the corresponding input
character or the mask character, the output has exactly the input's
length, and no case-insensitive occurrence of any listed word survives in
the output (every occurrence was replaced). -/
theorem c7_redaction (s : String) :
    (apply_profanity_filter s).length = s.length ∧
    List.Forall₂ relStar s.data (apply_profanity_filter s).data ∧
    ∀ w ∈ bad_words, hasMatch w.data (apply_profanity_filter s).data = false := by
  refine ⟨?_, foldSub_stars bad_words s, ?_⟩
  · have h := (foldSub_stars bad_words s).length_eq
    unfold apply_profanity_filter
    exact h.symm
  · intro w hw
    exact foldSub_no_match bad_words w hw (bad_words_good w hw) s

/-- Claim C10: apply_profanity_filter is idempotent — a second redaction
pass changes nothing, because masking with '*' can never create a new
case-insensitive occurrence of a listed word (no listed word contains the
mask character). -/
theorem c10_idempotent (s : String) :
    apply_profanity_filter (apply_profanity_filter s) = apply_profanity_filter s := by
  have hall : ∀ w ∈ bad_words,
      hasMatch w.data (apply_profanity_filter s).data = false :=
    fun w hw => foldSub_no_match bad_words w hw (bad_words_good w hw) s
  unfold apply_profanity_filter
  exact foldSub_id bad_words _
    (fun w hw => pySub_id w _ (hall w hw))

/-! ### Claims C1 and C2: the packing loop -/

theorem stringJoin_append (a b : List String) :
    String.join (a ++ b) = String.join a ++ String.join b := by
  induction a with
  | nil => rfl
  | cons x xs ih =>
    rw [List.cons_append, stringJoin_cons, stringJoin_cons, ih, String.append_assoc]

theorem projState_flushLine (g : GState) :
    flushLine (projState g) = projState (gFlushLine g) := by
  by_cases h : g.lineWords = []
  · simp [flushLine, gFlushLine, projState, h]
  · simp [flushLine, gFlushLine, projState, h]

theorem projState_flushBlock (g : GState) :
    flushBlock (projState g) = projState (gFlushBlock g) := by
  by_cases h : g.blockLines = []
  · simp [flushBlock, gFlushBlock, projState, h]
  · simp [flushBlock, gFlushBlock, projState, h, List.map_eq_nil_iff]

theorem projState_lineLen (g : GState) : (projState g).lineLen = g.lineLen := rfl

theorem projState_blockLines (g : GState) :
    (projState g).blockLines = g.blockLines.map mkLine := rfl

theorem projState_flush (mc ml : ℤ) (g : GState) (w : Word) :
    packFlush mc ml (projState g) w = projState (gFlush mc ml g w) := by
  unfold packFlush gFlush
  simp only [projState_lineLen, projState_flushLine, projState_blockLines,
    List.length_map]
  split_ifs <;> first
    | rfl
    | rw [projState_flushBlock]

theorem projState_step (mc ml : ℤ) (g : GState) (w : Word) :
    packStep mc ml (projState g) w = projState (gStep mc ml g w) := by
  unfold packStep gStep
  rw [projState_flush]
  rfl

theorem projState_fold (mc ml : ℤ) (ws : List Word) (g : GState) :
    ws.foldl (packStep mc ml) (projState g) = projState (ws.foldl (gStep mc ml) g) := by
  induction ws generalizing g with
  | nil => rfl
  | cons w ws ih =>
    rw [List.foldl_cons, List.foldl_cons, projState_step, ih]

/-- The source-level packed blocks are exactly the word-level blocks,
each line textified by mkLine and each block assembled by mkBlock. -/
theorem packedBlocks_eq_gBlocks (mc ml : ℤ) (ws : List Word) :
    packedBlocks mc ml ws = (gBlocks mc ml ws).map (fun b => mkBlock (b.map mkLine)) := by
  unfold packedBlocks gBlocks
  have h0 : (default : PackState) = projState (default : GState) := rfl
  rw [h0, projState_fold, projState_flushLine, projState_flushBlock]
  rfl

theorem sumLen_append (a b : List Word) : sumLen (a ++ b) = sumLen a + sumLen b := by
  simp [sumLen]

theorem mem_le_sumLen {w : Word} {l : List Word} (h : w ∈ l) :
    w.word.length ≤ sumLen l := by
  induction l with
  | nil => cases h
  | cons v vs ih =>
    rcases List.mem_cons.mp h with rfl | hmem
    · simp [sumLen]
    · have h2 := ih hmem
      simp only [sumLen, List.map_cons, List.sum_cons] at h2 ⊢
      omega

theorem word_of_length_zero {w : Word} (h : w.word.length = 0) : w.word = "" := by
  apply String.ext
  have : w.word.data.length = 0 := h
  simpa using List.eq_nil_of_length_eq_zero this

theorem sumLen_eq_zero {l : List Word} (h : sumLen l = 0) :
    ∀ w ∈ l, w.word = "" := by
  intro w hw
  have h1 := mem_le_sumLen hw
  exact word_of_length_zero (by omega)

theorem join_of_all_empty {l : List Word} (h : ∀ v ∈ l, v.word = "") :
    String.join (l.map (fun v => v.word)) = "" := by
  induction l with
  | nil => rfl
  | cons v vs ih =>
    rw [List.map_cons, stringJoin_cons, h v (List.mem_cons_self v vs),
      ih (fun u hu => h u (List.mem_cons_of_mem v hu))]
    rfl

theorem lineAlone_nil (mc : ℤ) : lineAlone mc [] := by
  intro u hu
  cases hu

theorem lineAlone_singleton (mc : ℤ) (w : Word) : lineAlone mc [w] := by
  intro u hu hlong
  rcases List.mem_singleton.mp hu with rfl
  rfl

/-- The key packing step fact: when the loop appends a word without having
flushed (the guard of line 336 failed), the extended current line still
keeps any overlong word alone. -/
theorem lineAlone_append {mc : ℤ} (hmc : 0 < mc) {l : List Word} {len : ℕ}
    (hsync : len = sumLen l) (w : Word)
    (hcond : ¬((len : ℤ) + w.word.length > mc ∧ 0 < len)) :
    lineAlone mc (l ++ [w]) := by
  intro u hu hlong
  by_cases hlen : len = 0
  · have hz : sumLen l = 0 := by omega
    have hempty := sumLen_eq_zero hz
    have hjoin : String.join ((l ++ [w]).map (fun v => v.word)) = w.word := by
      rw [List.map_append, stringJoin_append, join_of_all_empty hempty]
      rfl
    rcases List.mem_append.mp hu with hu | hu
    · exfalso
      have := hempty u hu
      rw [this] at hlong
      simp at hlong
      omega
    · rcases List.mem_singleton.mp hu with rfl
      exact hjoin
  · have hle : (len : ℤ) + w.word.length ≤ mc := by
      rcases not_and_or.mp hcond with h | h
      · omega
      · omega
    exfalso
    rcases List.mem_append.mp hu with hu | hu
    · have h1 := mem_le_sumLen hu
      omega
    · rcases List.mem_singleton.mp hu with rfl
      omega

theorem lineInv_gFlushLine {mc : ℤ} {cs : List Word} {g : GState}
    (h : LineInv mc cs g) : LineInv mc cs (gFlushLine g) := by
  unfold gFlushLine
  split_ifs with hl
  · exact h
  · refine ⟨?_, ?_, ?_, ?_, ?_⟩
    · have hc := h.concat
      simp only [List.flatten_append, List.flatten_cons, List.flatten_nil,
        List.append_nil, List.append_assoc] at hc ⊢
      exact hc
    · simp [sumLen]
    · exact h.aloneB
    · intro l hl2
      rcases List.mem_append.mp hl2 with hm | hm
      · exact h.aloneL l hm
      · rcases List.mem_singleton.mp hm with rfl
        exact h.aloneC
    · exact lineAlone_nil mc

theorem lineInv_gFlushBlock {mc : ℤ} {cs : List Word} {g : GState}
    (h : LineInv mc cs g) : LineInv mc cs (gFlushBlock g) := by
  unfold gFlushBlock
  split_ifs with hl
  · exact h
  · refine ⟨?_, h.sync, ?_, ?_, h.aloneC⟩
    · have hc := h.concat
      simp only [List.flatten_append, List.flatten_cons, List.flatten_nil,
        List.append_nil, List.append_assoc] at hc ⊢
      exact hc
    · intro l hl2
      simp only [List.flatten_append, List.flatten_cons, List.flatten_nil,
        List.append_nil] at hl2
      rcases List.mem_append.mp hl2 with hm | hm
      · exact h.aloneB l hm
      · exact h.aloneL l hm
    · intro l hl2
      cases hl2

theorem gFlushBlock_lineWords (g : GState) :
    (gFlushBlock g).lineWords = g.lineWords := by
  unfold gFlushBlock
  split_ifs <;> rfl

theorem lineInv_gFlush {mc ml : ℤ} {cs : List Word} {g : GState}
    (h : LineInv mc cs g) (w : Word) : LineInv mc cs (gFlush mc ml g w) := by
  unfold gFlush
  split_ifs with h1
  · show LineInv mc cs
      (if (ml : ℤ) ≤ ((gFlushLine g).blockLines.length : ℤ) then gFlushBlock (gFlushLine g)
        else gFlushLine g)
    split_ifs with h2
    · exact lineInv_gFlushBlock (lineInv_gFlushLine h)
    · exact lineInv_gFlushLine h
  · exact h

/-- After the flush phase of a loop iteration the current line is empty
whenever the guard fired (the guard requires a positive running length,
which by the sync invariant means a non-empty current line). -/
theorem gFlush_lineWords_spec {mc ml : ℤ} {cs : List Word} {g : GState}
    (h : LineInv mc cs g) (w : Word) :
    (gFlush mc ml g w).lineWords = [] ∨
      (gFlush mc ml g w) = g ∧ ¬((g.lineLen : ℤ) + w.word.length > mc ∧ 0 < g.lineLen) := by
  unfold gFlush
  split_ifs with h1
  · left
    have hne : g.lineWords ≠ [] := by
      intro hnil
      have hs := h.sync
      rw [hnil] at hs
      simp [sumLen] at hs
      omega
    have hfl : (gFlushLine g).lineWords = [] := by
      simp [gFlushLine, hne]
    show (if (ml : ℤ) ≤ ((gFlushLine g).blockLines.length : ℤ)
        then gFlushBlock (gFlushLine g) else gFlushLine g).lineWords = []
    split_ifs with h2
    · rw [gFlushBlock_lineWords, hfl]
    · exact hfl
  · right
    exact ⟨rfl, h1⟩

theorem gFlush_lineLen_sync {mc ml : ℤ} {cs : List Word} {g : GState}
    (h : LineInv mc cs g) (w : Word) :
    (gFlush mc ml g w).lineLen = sumLen (gFlush mc ml g w).lineWords :=
  (lineInv_gFlush h w).sync

theorem lineInv_gStep {mc ml : ℤ} (hmc : 0 < mc) {cs : List Word} {g : GState}
    (h : LineInv mc cs g) (w : Word) :
    LineInv mc (cs ++ [w]) (gStep mc ml g w) := by
  have h1 : LineInv mc cs (gFlush mc ml g w) := lineInv_gFlush h w
  have haloneNew : lineAlone mc ((gFlush mc ml g w).lineWords ++ [w]) := by
    rcases @gFlush_lineWords_spec mc ml _ _ h w with hnil | ⟨heq, hcond⟩
    · rw [hnil]
      exact lineAlone_singleton mc w
    · rw [heq]
      exact lineAlone_append hmc h.sync w hcond
  unfold gStep
  refine ⟨?_, ?_, h1.aloneB, h1.aloneL, haloneNew⟩
  · dsimp only
    have hc := h1.concat
    simp only [← List.append_assoc]
    rw [hc]
  · dsimp only
    rw [h1.sync, sumLen_append]
    simp [sumLen]

theorem lineInv_fold {mc : ℤ} (hmc : 0 < mc) (ml : ℤ) (ws : List Word) :
    LineInv mc ws (ws.foldl (gStep mc ml) default) := by
  have h0 : LineInv mc [] (default : GState) := by
    refine ⟨rfl, rfl, ?_, ?_, lineAlone_nil mc⟩ <;>
      · intro l hl
        simp [default] at hl
  have main : ∀ (ws' : List Word) (g : GState) (cs : List Word), LineInv mc cs g →
      LineInv mc (cs ++ ws') (ws'.foldl (gStep mc ml) g) := by
    intro ws'
    induction ws' with
    | nil =>
      intro g cs h
      simpa using h
    | cons w ws' ih =>
      intro g cs h
      rw [List.foldl_cons,
        show cs ++ (w :: ws') = (cs ++ [w]) ++ ws' from by simp]
      exact ih (gStep mc ml g w) (cs ++ [w]) (lineInv_gStep hmc h w)
  simpa using main ws default [] h0

theorem gFlushLine_lineWords (g : GState) : (gFlushLine g).lineWords = [] := by
  unfold gFlushLine
  split_ifs with h
  · exact h
  · rfl

theorem gFlushBlock_blockLines (g : GState) : (gFlushBlock g).blockLines = [] := by
  unfold gFlushBlock
  split_ifs with h
  · exact h
  · rfl

/-- Claim C1: in packed layout with positive maxChars, (a) at the moment a
word is appended, the (post-flush) current line is empty — holds no
characters — or its accumulated length plus the word's length stays within
maxChars; (b) no word is ever dropped, duplicated or reordered: the packed
line structure flattens back to the input word sequence; (c) a word longer
than maxChars ends up alone on its line (character-wise, the line's text
is exactly that word); and the source-level blocks are the textification
of that line structure. -/
theorem c1_packed_line_invariant (mc ml : ℤ) (ws : List Word) (hmc : 0 < mc) :
    (∀ (i : ℕ) (h : i < ws.length),
      (gFlush mc ml ((ws.take i).foldl (gStep mc ml) default) ws[i]).lineLen = 0 ∨
      ((gFlush mc ml ((ws.take i).foldl (gStep mc ml) default) ws[i]).lineLen : ℤ) +
          ((ws[i]).word.length : ℤ) ≤ mc) ∧
    (gBlocks mc ml ws).flatten.flatten = ws ∧
    (∀ b ∈ gBlocks mc ml ws, ∀ l ∈ b, lineAlone mc l) ∧
    packedBlocks mc ml ws = (gBlocks mc ml ws).map (fun b => mkBlock (b.map mkLine)) := by
  have hfin := lineInv_gFlushBlock (lineInv_gFlushLine (lineInv_fold hmc ml ws))
  refine ⟨?_, ?_, ?_, packedBlocks_eq_gBlocks mc ml ws⟩
  · intro i hi
    have hpre := lineInv_fold hmc ml (ws.take i)
    rcases @gFlush_lineWords_spec mc ml _ _ hpre (ws[i]) with hnil | ⟨heq, hcond⟩
    · left
      have hs := (@lineInv_gFlush mc ml _ _ hpre (ws[i])).sync
      rw [hnil] at hs
      simpa [sumLen] using hs
    · rw [heq]
      rcases not_and_or.mp hcond with hc | hc
      · right
        omega
      · left
        omega
  · have hc := hfin.concat
    rw [gFlushBlock_blockLines, gFlushBlock_lineWords, gFlushLine_lineWords] at hc
    simpa [gBlocks] using hc
  · intro b hb l hl
    exact hfin.aloneB l (List.mem_flatten.mpr ⟨b, hb, hl⟩)

/-- Witness for C1 with maxChars = 3, maxLines = 2 and three words, the
middle one 7 characters long: the long word sits alone on its own line,
and no word is dropped. -/
theorem c1_packed_line_invariant_witness :
    (0 : ℤ) < 3 ∧
    ((∀ (i : ℕ) (h : i < ([Word.mk "hey" 0 1, Word.mk " worlds" 1 2,
          Word.mk "!" 2 3] : List Word).length),
      (gFlush 3 2 ((([Word.mk "hey" 0 1, Word.mk " worlds" 1 2,
            Word.mk "!" 2 3] : List Word).take i).foldl (gStep 3 2) default)
          ([Word.mk "hey" 0 1, Word.mk " worlds" 1 2, Word.mk "!" 2 3] : List Word)[i]).lineLen = 0 ∨
      ((gFlush 3 2 ((([Word.mk "hey" 0 1, Word.mk " worlds" 1 2,
            Word.mk "!" 2 3] : List Word).take i).foldl (gStep 3 2) default)
          ([Word.mk "hey" 0 1, Word.mk " worlds" 1 2, Word.mk "!" 2 3] : List Word)[i]).lineLen : ℤ) +
          ((([Word.mk "hey" 0 1, Word.mk " worlds" 1 2,
            Word.mk "!" 2 3] : List Word)[i]).word.length : ℤ) ≤ 3) ∧
    (gBlocks 3 2 [Word.mk "hey" 0 1, Word.mk " worlds" 1 2,
        Word.mk "!" 2 3]).flatten.flatten =
      [Word.mk "hey" 0 1, Word.mk " worlds" 1 2, Word.mk "!" 2 3] ∧
    (∀ b ∈ gBlocks 3 2 [Word.mk "hey" 0 1, Word.mk " worlds" 1 2, Word.mk "!" 2 3],
      ∀ l ∈ b, lineAlone 3 l) ∧
    packedBlocks 3 2 [Word.mk "hey" 0 1, Word.mk " worlds" 1 2, Word.mk "!" 2 3] =
      (gBlocks 3 2 [Word.mk "hey" 0 1, Word.mk " worlds" 1 2,
        Word.mk "!" 2 3]).map (fun b => mkBlock (b.map mkLine))) :=
  ⟨by decide,
   c1_packed_line_invariant 3 2
     [Word.mk "hey" 0 1, Word.mk " worlds" 1 2, Word.mk "!" 2 3] (by decide)⟩

/-! ### Claim C2: the block line cap -/

theorem blockInv_gStep {mc ml : ℤ} (hml : 0 < ml) {g : GState}
    (h : BlockInv ml g) (w : Word) : BlockInv ml (gStep mc ml g w) := by
  suffices hs : BlockInv ml (gFlush mc ml g w) by
    exact ⟨hs.current, hs.done⟩
  unfold gFlush
  split_ifs with h1
  · show BlockInv ml (if (ml : ℤ) ≤ ((gFlushLine g).blockLines.length : ℤ)
        then gFlushBlock (gFlushLine g) else gFlushLine g)
    have hlen : ((gFlushLine g).blockLines.length : ℤ) ≤ (g.blockLines.length : ℤ) + 1 := by
      unfold gFlushLine
      split_ifs <;> simp
    have hdone : ∀ b ∈ (gFlushLine g).blocks, (b.length : ℤ) ≤ ml := by
      unfold gFlushLine
      split_ifs <;> exact h.done
    split_ifs with h2
    · unfold gFlushBlock
      split_ifs with h3
      · exact ⟨by simp [h3]; exact_mod_cast hml, hdone⟩
      · refine ⟨by simpa using hml, ?_⟩
        intro b hb
        rcases List.mem_append.mp hb with hm | hm
        · exact hdone b hm
        · rcases List.mem_singleton.mp hm with rfl
          have hcur := h.current
          omega
    · push_neg at h2
      exact ⟨h2, hdone⟩
  · exact h

theorem blockInv_fold {ml : ℤ} (hml : 0 < ml) (mc : ℤ) (ws : List Word) :
    BlockInv ml (ws.foldl (gStep mc ml) default) := by
  have h0 : BlockInv ml (default : GState) := by
    refine ⟨by simpa using hml, ?_⟩
    intro b hb
    simp [default] at hb
  have main : ∀ (ws' : List Word) (g : GState), BlockInv ml g →
      BlockInv ml (ws'.foldl (gStep mc ml) g) := by
    intro ws'
    induction ws' with
    | nil =>
      intro g h
      exact h
    | cons w ws' ih =>
      intro g h
      rw [List.foldl_cons]
      exact ih _ (blockInv_gStep hml h w)
  exact main ws default h0

theorem blockInv_final {ml : ℤ} {g : GState} (h : BlockInv ml g) :
    ∀ b ∈ (gFlushBlock (gFlushLine g)).blocks, (b.length : ℤ) ≤ ml := by
  have hdone : ∀ b ∈ (gFlushLine g).blocks, (b.length : ℤ) ≤ ml := by
    unfold gFlushLine
    split_ifs <;> exact h.done
  have hlen : ((gFlushLine g).blockLines.length : ℤ) ≤ (g.blockLines.length : ℤ) + 1 := by
    unfold gFlushLine
    split_ifs <;> simp
  unfold gFlushBlock
  split_ifs with h3
  · exact hdone
  · intro b hb
    rcases List.mem_append.mp hb with hm | hm
    · exact hdone b hm
    · rcases List.mem_singleton.mp hm with rfl
      have hcur := h.current
      omega

/-- Claim C2: in packed layout with positive maxLines, every emitted block
holds at most maxLines lines (a final partial block may hold fewer, never
more), and the source-level blocks are the textification of the word-level
block structure. -/
theorem c2_block_line_cap (mc ml : ℤ) (ws : List Word) (hml : 0 < ml) :
    packedBlocks mc ml ws = (gBlocks mc ml ws).map (fun b => mkBlock (b.map mkLine)) ∧
    ∀ b ∈ gBlocks mc ml ws, (b.length : ℤ) ≤ ml :=
  ⟨packedBlocks_eq_gBlocks mc ml ws, blockInv_final (blockInv_fold hml mc ws)⟩

/-- Witness for C2 with maxChars = 5, maxLines = 2 and four short words
that force two blocks: each block holds at most 2 lines. -/
theorem c2_block_line_cap_witness :
    (0 : ℤ) < 2 ∧
    (packedBlocks 5 2 [Word.mk "one" 0 1, Word.mk "two" 1 2, Word.mk "three" 2 3,
        Word.mk "four" 3 4] =
      (gBlocks 5 2 [Word.mk "one" 0 1, Word.mk "two" 1 2, Word.mk "three" 2 3,
        Word.mk "four" 3 4]).map (fun b => mkBlock (b.map mkLine)) ∧
    ∀ b ∈ gBlocks 5 2 [Word.mk "one" 0 1, Word.mk "two" 1 2, Word.mk "three" 2 3,
        Word.mk "four" 3 4], (b.length : ℤ) ≤ 2) :=
  ⟨by decide,
   c2_block_line_cap 5 2 [Word.mk "one" 0 1, Word.mk "two" 1 2, Word.mk "three" 2 3,
     Word.mk "four" 3 4] (by decide)⟩

end VideoToSRT
